import Mathlib

/-!
# MeroShare automation — shallow embedding of the run orchestrator and
# result-reconciliation engine

This file embeds, as executable Lean definitions, the pure logic of:

* `src/core/browser.js` (`ResultScraper`): `findCompaniesToScrape`,
  `extractApplicationDetails` (status classification), `loadPreviousResults`,
  the merge inside `saveResults`, and `compareResults`;
* `src/index.js` (`MeroShareAutomation`): the `executeAll` per-account loop
  with its try/catch fail-isolation, `maskValue`, and the exit-code
  derivation in the main IIFE.

Effectful boundaries (Puppeteer page reads, the filesystem, wall-clock time,
the per-account workflow) are represented as explicit oracle arguments, so
every definition is a total computable function.
-/

namespace MeroShare

/-- One tracked application outcome, as built by
`ResultScraper.extractApplicationDetails` (browser.js, lines 402-424) and
persisted in `logs/application-results.json`.  The two `parseFloat` monetary
fields (`pricePerShare`, `amount`) are JavaScript floats; no claim concerns
them and they are omitted from the embedding.  `scrapedAt` is stamped by the
caller (`scrapeAllResults`). -/
structure ApplicationRecord where
  companyName : String := ""
  type : String := ""
  group : String := ""
  status : String := ""
  isAlloted : Bool := false
  appliedQty : Nat := 0
  allotedQty : Nat := 0
  submittedDate : String := ""
  issueOpenDate : String := ""
  issueCloseDate : String := ""
  bank : String := ""
  branch : String := ""
  accountNumber : String := ""
  minQty : Nat := 0
  maxQty : Nat := 0
  remarks : String := ""
  scrapedAt : String := ""
  deriving DecidableEq, Repr

/-- A row of the listing page as returned by
`ResultScraper.getAllCompanyNames` (browser.js, lines 243-256). -/
structure PageCompany where
  index : Nat
  name : String
  deriving DecidableEq, Repr

/-- Company header info as returned by `ResultScraper.getCompanyAtIndex`
(browser.js, lines 174-190). -/
structure CompanyInfo where
  name : String := ""
  type : String := ""
  group : String := ""
  deriving DecidableEq, Repr

/-! ## The JavaScript `Map` keyed by `companyName`

Both `findCompaniesToScrape`, `saveResults` and `compareResults` build a JS
`Map` from `companyName` to the record itself (the key always equals the
value's `companyName` field), so the map is represented by the
insertion-ordered list of its values.  `Map.prototype.set` on a present key
overwrites the value in place (keeping its position); on an absent key it
appends.  `new Map(entries)` is a fold of `set` from the empty map, and
`Map.prototype.get` returns the (unique) entry with the key. -/

/-- `Map.prototype.set` keyed by `companyName`: a JS `Map` holds at most
one entry per key, and `set` overwrites the entry holding the key in place
(keeping its position), otherwise appends a new entry. -/
def recMapSet : List ApplicationRecord → ApplicationRecord → List ApplicationRecord
  | [], app => [app]
  | r :: m, app =>
    if r.companyName == app.companyName then app :: m
    else r :: recMapSet m app

/-- `new Map(list.map(r => [r.companyName, r]))`. -/
def recMapOfList (l : List ApplicationRecord) : List ApplicationRecord :=
  l.foldl recMapSet []

/-- `Map.prototype.get` keyed by `companyName`. -/
def recMapGet (m : List ApplicationRecord) (k : String) :
    Option ApplicationRecord :=
  m.find? (fun r => r.companyName == k)

/-- The insertion-ordered key list of the map. -/
def mapKeys (m : List ApplicationRecord) : List String :=
  m.map (fun r => r.companyName)

/-! ## Scrape selection (`findCompaniesToScrape`) -/

/-- Loop body of `ResultScraper.findCompaniesToScrape`
(browser.js, lines 266-278): a page item with no prior record, or whose
prior record is pending (`!existing.isAlloted && existing.status !== "Not
Alloted"`), is pushed to `toScrape`; otherwise the prior record is pushed to
`cached`. -/
def scrapeClassify (existingMap : List ApplicationRecord)
    (acc : List PageCompany × List ApplicationRecord) (company : PageCompany) :
    List PageCompany × List ApplicationRecord :=
  match recMapGet existingMap company.name with
  | none => (acc.1 ++ [company], acc.2)
  | some existing =>
    if !existing.isAlloted && existing.status != "Not Alloted" then
      (acc.1 ++ [company], acc.2)
    else
      (acc.1, acc.2 ++ [existing])

/-- `ResultScraper.findCompaniesToScrape(pageCompanies, existingResults)`
(browser.js, lines 261-281). -/
def findCompaniesToScrape (pageCompanies : List PageCompany)
    (existingResults : List ApplicationRecord) :
    List PageCompany × List ApplicationRecord :=
  pageCompanies.foldl (scrapeClassify (recMapOfList existingResults)) ([], [])

/-! ## Detail extraction (`extractApplicationDetails`) -/

/-- The status classification `/allot(ed)?/i.test(status)`
(browser.js, line 403).  Since the `(ed)?` group is optional, the regular
expression matches exactly when the status, lowercased character by
character, contains `"allot"` as a substring. -/
def isAllotedStatus (status : String) : Bool :=
  decide ("allot".toList <:+: status.toList.map Char.toLower)

/-- `parseInt(s) || 0`: the number given by the decimal digits following
any leading whitespace, and `0` when there is none (`NaN || 0`). -/
def parseIntOr0 (s : String) : Nat :=
  let digits := (s.toList.dropWhile Char.isWhitespace).takeWhile Char.isDigit
  digits.foldl (fun n c => n * 10 + (c.toNat - 48)) 0

/-- `ResultScraper.extractApplicationDetails` (browser.js, lines 378-432):
the pure record construction, with the DOM lookup `getLabelValue` passed as
an oracle from label text to field text.  The caller stamps `scrapedAt`;
the two float fields are omitted (see `ApplicationRecord`). -/
def extractApplicationDetails (info : CompanyInfo)
    (getLabelValue : String → String) : ApplicationRecord :=
  let status := getLabelValue "Status"
  let isAlloted := isAllotedStatus status
  { companyName := info.name
    type := info.type
    group := info.group
    status := status
    isAlloted := isAlloted
    appliedQty := parseIntOr0 (getLabelValue "Applied Quantity")
    allotedQty := if isAlloted then parseIntOr0 (getLabelValue "Alloted Quantity") else 0
    submittedDate := getLabelValue "Application submitted date"
    issueOpenDate := getLabelValue "Issue Open Date"
    issueCloseDate := getLabelValue "Issue Close Date"
    bank := getLabelValue "Bank"
    branch := getLabelValue "Branch"
    accountNumber := getLabelValue "Account Number"
    minQty := parseIntOr0 (getLabelValue "Minimum Quantity")
    maxQty := parseIntOr0 (getLabelValue "Maximum Quantity")
    remarks := getLabelValue "Remarks"
    scrapedAt := "" }

/-! ## The persisted ledger (`loadPreviousResults` / `saveResults`) -/

/-- One account's slot in `logs/application-results.json`. -/
structure AccountLedger where
  lastUpdated : String
  applications : List ApplicationRecord
  deriving DecidableEq, Repr

/-- The state of the results file on disk: absent, present but not valid
JSON (so `JSON.parse` throws), or a parsed mapping from account username to
its ledger slot (a JS object, modelled as a lookup function). -/
inductive StoreState where
  | missing : StoreState
  | malformed (raw : String) : StoreState
  | valid (data : String → Option AccountLedger) : StoreState

/-- `ResultScraper.loadPreviousResults` (browser.js, lines 437-447): read
and parse the results file, returning the empty object `{}` when the file
is missing or the read/parse throws. -/
def loadPreviousResults : StoreState → (String → Option AccountLedger)
  | .missing => fun _ => none
  | .malformed _ => fun _ => none
  | .valid data => data

/-- `previousData[username]?.applications || []`
(browser.js, lines 303 and 455 and 483). -/
def accountApplications (store : String → Option AccountLedger)
    (username : String) : List ApplicationRecord :=
  match store username with
  | some ledger => ledger.applications
  | none => []

/-- The sort order used by `saveResults`:
`(a, b) => a.companyName.localeCompare(b.companyName)` ascending by
company name. -/
def recLE (a b : ApplicationRecord) : Prop :=
  a.companyName ≤ b.companyName

instance : DecidableRel recLE :=
  fun a b => inferInstanceAs (Decidable (a.companyName ≤ b.companyName))

instance : IsTotal ApplicationRecord recLE :=
  ⟨fun a b => le_total a.companyName b.companyName⟩

instance : IsTrans ApplicationRecord recLE :=
  ⟨fun _ _ _ hab hbc => le_trans hab hbc⟩

/-- The merge at the heart of `ResultScraper.saveResults`
(browser.js, lines 452-464): seed a `Map` keyed by company name with the
previously persisted records, overwrite with every freshly scraped record,
and sort the values by company name. -/
def mergeApplications (previousApps newResults : List ApplicationRecord) :
    List ApplicationRecord :=
  let existingMap := newResults.foldl recMapSet (recMapOfList previousApps)
  List.insertionSort recLE existingMap

/-- `ResultScraper.saveResults` (browser.js, lines 452-476): read-modify-
write of the account's slot, replacing its application list with the merge
and stamping `lastUpdated` with the current time `now`. -/
def saveResults (store : String → Option AccountLedger)
    (accountUsername : String) (newResults : List ApplicationRecord)
    (now : String) : String → Option AccountLedger :=
  fun k =>
    if k = accountUsername then
      some { lastUpdated := now
             applications := mergeApplications
               (accountApplications store accountUsername) newResults }
    else store k

/-! ## Change detection (`compareResults`) -/

/-- A `changes.updatedAllotments` entry:
`{ ...newResult, previousQty: previous.allotedQty }`
(browser.js, line 503). -/
structure UpdatedAllotment where
  record : ApplicationRecord
  previousQty : Nat
  deriving DecidableEq, Repr

/-- The change set computed by `ResultScraper.compareResults`
(browser.js, lines 486-490). -/
structure Changes where
  newAllotments : List ApplicationRecord
  updatedAllotments : List UpdatedAllotment
  newApplications : List ApplicationRecord
  deriving DecidableEq, Repr

/-- Loop body of `ResultScraper.compareResults`
(browser.js, lines 492-505). -/
def compareStep (previousMap : List ApplicationRecord) (changes : Changes)
    (newResult : ApplicationRecord) : Changes :=
  match recMapGet previousMap newResult.companyName with
  | none =>
    let changes :=
      { changes with newApplications := changes.newApplications ++ [newResult] }
    if newResult.isAlloted then
      { changes with newAllotments := changes.newAllotments ++ [newResult] }
    else changes
  | some previous =>
    if newResult.isAlloted && !previous.isAlloted then
      { changes with newAllotments := changes.newAllotments ++ [newResult] }
    else if newResult.isAlloted && previous.isAlloted
        && newResult.allotedQty != previous.allotedQty then
      { changes with updatedAllotments :=
          changes.updatedAllotments ++ [⟨newResult, previous.allotedQty⟩] }
    else changes

/-- `ResultScraper.compareResults(accountUsername, newResults)` with the
account's pre-merge prior records already looked up
(browser.js, lines 481-508). -/
def compareResults (previousApps newResults : List ApplicationRecord) :
    Changes :=
  newResults.foldl (compareStep (recMapOfList previousApps)) ⟨[], [], []⟩

/-! ## The run orchestrator (`MeroShareAutomation.executeAll`, index.js) -/

/-- One configured account (config.js); only the fields the orchestrator
loop reads are modelled. -/
structure Account where
  username : String := ""
  dpName : String := ""
  targetIssueName : String := ""
  appliedKitta : Nat := 0
  deriving DecidableEq, Repr

/-- The `details` object built by `executeForAccount` on success
(index.js, lines 272-276). -/
structure WorkflowDetails where
  issue : String
  kitta : Nat
  dp : String
  deriving DecidableEq, Repr

/-- The per-account outcome object accumulated by `executeAll`
(success object returned by `executeForAccount`, or the failure object
built in the catch block). -/
structure WorkflowResult where
  success : Bool
  message : Option String := none
  error : Option String := none
  referenceId : Option String := none
  timestamp : String := ""
  details : Option WorkflowDetails := none
  deriving DecidableEq, Repr

/-- What one account's workflow (`executeForAccount`) does when invoked:
either it returns a result object, or it raises an error with a message.
This is the external-world oracle for one account. -/
inductive WorkflowOutcome where
  | completed (result : WorkflowResult) : WorkflowOutcome
  | raised (message : String) : WorkflowOutcome
  deriving DecidableEq, Repr

/-- One entry of `this.results`: `{ account: mask, dp, ...result }`
(index.js, lines 164-168 and 179-185; the JS spread is modelled by
nesting the result object). -/
structure RunEntry where
  account : String
  dp : String
  result : WorkflowResult
  deriving DecidableEq, Repr

/-- `MeroShareAutomation.maskValue(value)` (index.js, lines 360-363). -/
def maskValue (value : String) : String :=
  if value.length < 4 then "***"
  else value.take 3 ++ String.mk (List.replicate (min (value.length - 3) 5) '*')

/-- The body of one iteration of the `executeAll` loop
(index.js, lines 162-187): invoke the workflow; on completion push its
result, on a raised error push a failed result carrying the error's message
and a timestamp (`clock` is the wall-clock oracle used by
`new Date().toISOString()` in the catch block). -/
def accountEntry (wf : Account → WorkflowOutcome) (clock : Account → String)
    (account : Account) : RunEntry :=
  match wf account with
  | .completed result =>
    { account := maskValue account.username, dp := account.dpName
      result := result }
  | .raised msg =>
    { account := maskValue account.username, dp := account.dpName
      result := { success := false, error := some msg
                  timestamp := clock account } }

/-- The `executeAll` account loop (index.js, lines 153-195), accumulating
into `this.results`. -/
def executeAllLoop (wf : Account → WorkflowOutcome)
    (clock : Account → String) :
    List Account → List RunEntry → List RunEntry
  | [], results => results
  | account :: rest, results =>
    executeAllLoop wf clock rest (results ++ [accountEntry wf clock account])

/-- `MeroShareAutomation.executeAll()` starting from empty `this.results`
(index.js, lines 143-200). -/
def executeAll (wf : Account → WorkflowOutcome) (clock : Account → String)
    (accounts : List Account) : List RunEntry :=
  executeAllLoop wf clock accounts []

/-! ## Exit-code derivation (main IIFE, index.js lines 481-512) -/

/-- The exit code computed from a completed run's result list
(index.js, lines 486-506): in results mode `hasErrors ? 1 : 0`; otherwise
`0` when no failures, `1` when some successes and some failures, `2` when
no successes. -/
def exitDerivation (resultsMode : Bool) (results : List RunEntry) : Nat :=
  if resultsMode then
    if results.any (fun r => !r.result.success) then 1 else 0
  else
    let successCount := (results.filter (fun r => r.result.success)).length
    let failCount := (results.filter (fun r => !r.result.success)).length
    if failCount = 0 then 0
    else if successCount > 0 then 1
    else 2

/-- The whole main IIFE (index.js, lines 481-512): a fatal error thrown
before the run completes exits with code `2`; otherwise the exit code is
derived from the results. -/
def mainExitCode (resultsMode : Bool)
    (run : Except String (List RunEntry)) : Nat :=
  match run with
  | .error _ => 2
  | .ok results => exitDerivation resultsMode results

/-! ## Specification-side descriptions used to characterise the folds -/

/-- Last record in `l` with company name `k` (JS `Map` last-write-wins
on key collision). -/
def lastFind (l : List ApplicationRecord) (k : String) :
    Option ApplicationRecord :=
  match l with
  | [] => none
  | r :: t =>
    match lastFind t k with
    | some x => some x
    | none => if r.companyName == k then some r else none

/-- A page item needs scraping: no prior record, or the prior record is
still pending. -/
def needsScrapeB (existingMap : List ApplicationRecord) (c : PageCompany) :
    Bool :=
  match recMapGet existingMap c.name with
  | none => true
  | some e => !e.isAlloted && e.status != "Not Alloted"

/-- The cached prior record reused for a finalized page item, if any. -/
def cachedPick (existingMap : List ApplicationRecord) (c : PageCompany) :
    Option ApplicationRecord :=
  match recMapGet existingMap c.name with
  | none => none
  | some e =>
    if !e.isAlloted && e.status != "Not Alloted" then none else some e

/-- A fresh record is a new application: no prior record under its name. -/
def newAppPred (previousMap : List ApplicationRecord)
    (f : ApplicationRecord) : Bool :=
  (recMapGet previousMap f.companyName).isNone

/-- A fresh record is a new allotment: allotted, and either never seen
before or previously not allotted. -/
def newAllotPred (previousMap : List ApplicationRecord)
    (f : ApplicationRecord) : Bool :=
  match recMapGet previousMap f.companyName with
  | none => f.isAlloted
  | some p => f.isAlloted && !p.isAlloted

/-- The updated-allotment entry produced by a fresh record, if any:
allotted before and now, with a different allotted quantity. -/
def updatePick (previousMap : List ApplicationRecord)
    (f : ApplicationRecord) : Option UpdatedAllotment :=
  match recMapGet previousMap f.companyName with
  | none => none
  | some p =>
    if f.isAlloted && p.isAlloted && f.allotedQty != p.allotedQty then
      some ⟨f, p.allotedQty⟩
    else none

/-- Replace every entry of `m` whose key occurs in `fresh` by the last
`fresh` record with that key. -/
def applyFresh (fresh m : List ApplicationRecord) : List ApplicationRecord :=
  m.map (fun r =>
    match lastFind fresh r.companyName with
    | some x => x
    | none => r)

/-! ## Concrete sample inputs (used by witnesses and counterexamples) -/

/-- Prior record `{name:"A", isAlloted:true}` of the spec's scrape-skip
example. -/
def recA : ApplicationRecord :=
  { companyName := "A", status := "Alloted", isAlloted := true, allotedQty := 10 }

/-- Prior record `{name:"B", isAlloted:false, status:"Pending"}` of the
spec's scrape-skip example. -/
def recB : ApplicationRecord :=
  { companyName := "B", status := "Pending", isAlloted := false }

/-- The spec's last-write-wins example: prior `{name:"X", status:"Pending"}`. -/
def recXPrior : ApplicationRecord :=
  { companyName := "X", status := "Pending" }

/-- The spec's last-write-wins example: fresh
`{name:"X", status:"Alloted", allotedQty:10}`. -/
def recXFresh : ApplicationRecord :=
  { companyName := "X", status := "Alloted", isAlloted := true, allotedQty := 10 }

/-- A failed run entry (an account whose workflow failed). -/
def entryFail : RunEntry :=
  { account := "acc*****", dp := "DP"
    result := { success := false, error := some "Login failed"
                timestamp := "2026-01-01T00:00:00.000Z" } }

/-- Sample account list for the orchestrator witnesses. -/
def accs0 : List Account :=
  [ { username := "alice123", dpName := "DP One", targetIssueName := "Issue A", appliedKitta := 10 },
    { username := "bob45678", dpName := "DP Two", targetIssueName := "Issue A", appliedKitta := 10 } ]

/-- Sample workflow oracle: the first account raises, the second completes
successfully. -/
def wf0 : Account → WorkflowOutcome :=
  fun a =>
    if a.username = "alice123" then .raised "boom"
    else .completed { success := true, message := some "ok"
                      timestamp := "t1" }

/-- Sample wall-clock oracle. -/
def clock0 : Account → String := fun _ => "t0"

/-- Spec change-detection example: prior `{name:"C", isAlloted:false}`. -/
def recCPrior : ApplicationRecord :=
  { companyName := "C", status := "Pending" }

/-- Spec change-detection example: fresh
`{name:"C", isAlloted:true, allotedQty:5}`. -/
def recCFresh : ApplicationRecord :=
  { companyName := "C", status := "Alloted", isAlloted := true, allotedQty := 5 }

/-- Spec change-detection example: prior
`{name:"D", isAlloted:true, allotedQty:5}`. -/
def recDPrior : ApplicationRecord :=
  { companyName := "D", status := "Alloted", isAlloted := true, allotedQty := 5 }

/-- Spec change-detection example: fresh
`{name:"D", isAlloted:true, allotedQty:8}`. -/
def recDFresh : ApplicationRecord :=
  { companyName := "D", status := "Alloted", isAlloted := true, allotedQty := 8 }

/-- DOM oracle whose Status field reads the terminal string. -/
def glNotAlloted : String → String :=
  fun label => if label = "Status" then "Not Alloted" else ""

/-- Company info for the detail-extraction sample. -/
def infoA : CompanyInfo := { name := "A" }

/-- The record extracted from a detail page whose status reads
"Not Alloted". -/
def recNotAlloted : ApplicationRecord :=
  extractApplicationDetails infoA glNotAlloted

end MeroShare

namespace MeroShare

/-! ## Lemmas about the company-name keyed map model -/

theorem mapKeys_nil : mapKeys [] = [] := rfl

theorem mapKeys_cons (a : ApplicationRecord) (t : List ApplicationRecord) :
    mapKeys (a :: t) = a.companyName :: mapKeys t := rfl

theorem mapKeys_append (l₁ l₂ : List ApplicationRecord) :
    mapKeys (l₁ ++ l₂) = mapKeys l₁ ++ mapKeys l₂ := by
  simp [mapKeys]

theorem mem_mapKeys {k : String} {m : List ApplicationRecord} :
    k ∈ mapKeys m ↔ ∃ r ∈ m, r.companyName = k := by
  simp [mapKeys]

theorem recMapGet_nil (k : String) : recMapGet [] k = none := rfl

theorem recMapGet_cons (r : ApplicationRecord) (t : List ApplicationRecord)
    (k : String) :
    recMapGet (r :: t) k =
      if r.companyName == k then some r else recMapGet t k := by
  unfold recMapGet
  rw [List.find?_cons]
  cases h : r.companyName == k <;> simp [h]

theorem recMapGet_isSome_iff {m : List ApplicationRecord} {k : String} :
    (recMapGet m k).isSome = true ↔ k ∈ mapKeys m := by
  simp [recMapGet, List.find?_isSome, mapKeys]

theorem recMapGet_eq_none_iff {m : List ApplicationRecord} {k : String} :
    recMapGet m k = none ↔ k ∉ mapKeys m := by
  rw [← recMapGet_isSome_iff]
  cases recMapGet m k <;> simp

theorem recMapGet_eq_some_imp {m : List ApplicationRecord} {k : String}
    {r : ApplicationRecord} (h : recMapGet m k = some r) :
    r ∈ m ∧ r.companyName = k := by
  refine ⟨List.mem_of_find?_eq_some h, ?_⟩
  have := List.find?_some h
  simpa using this

theorem recMapGet_set_self (a : ApplicationRecord) :
    ∀ m : List ApplicationRecord,
      recMapGet (recMapSet m a) a.companyName = some a := by
  intro m
  induction m with
  | nil => simp [recMapSet, recMapGet_cons, recMapGet_nil]
  | cons r t ih =>
    by_cases h : r.companyName = a.companyName
    · simp [recMapSet, h, recMapGet_cons]
    · simp [recMapSet, h, recMapGet_cons, ih]

theorem recMapGet_set_ne (a : ApplicationRecord) (k : String)
    (h : k ≠ a.companyName) :
    ∀ m : List ApplicationRecord,
      recMapGet (recMapSet m a) k = recMapGet m k := by
  intro m
  have h' : ¬(a.companyName = k) := fun e => h e.symm
  induction m with
  | nil => simp [recMapSet, recMapGet_cons, recMapGet_nil, h']
  | cons r t ih =>
    by_cases hr : r.companyName = a.companyName
    · simp [recMapSet, hr, recMapGet_cons, h']
    · simp [recMapSet, hr, recMapGet_cons, ih]

theorem mapKeys_set_mem (a : ApplicationRecord) :
    ∀ m : List ApplicationRecord, a.companyName ∈ mapKeys m →
      mapKeys (recMapSet m a) = mapKeys m := by
  intro m
  induction m with
  | nil => simp [mapKeys]
  | cons r t ih =>
    intro hmem
    by_cases h : r.companyName = a.companyName
    · simp [recMapSet, h, mapKeys_cons]
    · have hmem' : a.companyName ∈ mapKeys t := by
        rcases (by simpa [mapKeys_cons] using hmem) with h1 | h1
        · exact absurd h1.symm h
        · exact h1
      simp [recMapSet, h, mapKeys_cons, ih hmem']

theorem mapKeys_set_not_mem (a : ApplicationRecord) :
    ∀ m : List ApplicationRecord, a.companyName ∉ mapKeys m →
      mapKeys (recMapSet m a) = mapKeys m ++ [a.companyName] := by
  intro m
  induction m with
  | nil => simp [recMapSet, mapKeys]
  | cons r t ih =>
    intro hmem
    have h : ¬(r.companyName = a.companyName) := by
      intro e
      exact hmem (by simp [mapKeys_cons, e])
    have hmem' : a.companyName ∉ mapKeys t := by
      intro h1
      exact hmem (by simp [mapKeys_cons, h1])
    simp [recMapSet, h, mapKeys_cons, ih hmem']

theorem set_of_not_mem_keys (a : ApplicationRecord) :
    ∀ m : List ApplicationRecord, a.companyName ∉ mapKeys m →
      recMapSet m a = m ++ [a] := by
  intro m
  induction m with
  | nil => simp [recMapSet]
  | cons r t ih =>
    intro hmem
    have h : ¬(r.companyName = a.companyName) := by
      intro e
      exact hmem (by simp [mapKeys_cons, e])
    have hmem' : a.companyName ∉ mapKeys t := by
      intro h1
      exact hmem (by simp [mapKeys_cons, h1])
    simp [recMapSet, h, ih hmem']

theorem nodup_keys_set (a : ApplicationRecord) (m : List ApplicationRecord)
    (hnd : (mapKeys m).Nodup) : (mapKeys (recMapSet m a)).Nodup := by
  by_cases h : a.companyName ∈ mapKeys m
  · rwa [mapKeys_set_mem a m h]
  · rw [mapKeys_set_not_mem a m h]
    simp [List.nodup_append, hnd, h]

theorem nodup_keys_foldl_set :
    ∀ (fresh : List ApplicationRecord) (m : List ApplicationRecord),
      (mapKeys m).Nodup → (mapKeys (fresh.foldl recMapSet m)).Nodup := by
  intro fresh
  induction fresh with
  | nil => intro m h; simpa using h
  | cons f t ih =>
    intro m h
    exact ih (recMapSet m f) (nodup_keys_set f m h)

theorem nodup_keys_recMapOfList (l : List ApplicationRecord) :
    (mapKeys (recMapOfList l)).Nodup :=
  nodup_keys_foldl_set l [] (by simp [mapKeys])

theorem foldl_set_eq_append :
    ∀ (l m : List ApplicationRecord), (mapKeys (m ++ l)).Nodup →
      l.foldl recMapSet m = m ++ l := by
  intro l
  induction l with
  | nil => intro m _; simp
  | cons a t ih =>
    intro m hnd
    have hsplit : (mapKeys m ++ a.companyName :: mapKeys t).Nodup := by
      simpa [mapKeys_append, mapKeys_cons] using hnd
    have hnotin : a.companyName ∉ mapKeys m := by
      rw [List.nodup_append] at hsplit
      intro hmem
      exact hsplit.2.2 hmem (by simp)
    have hset : recMapSet m a = m ++ [a] := set_of_not_mem_keys a m hnotin
    have hnd' : (mapKeys ((m ++ [a]) ++ t)).Nodup := by
      simpa [List.append_assoc] using hnd
    calc (a :: t).foldl recMapSet m = t.foldl recMapSet (recMapSet m a) := rfl
      _ = t.foldl recMapSet (m ++ [a]) := by rw [hset]
      _ = (m ++ [a]) ++ t := ih (m ++ [a]) hnd'
      _ = m ++ (a :: t) := by simp

theorem recMapOfList_nodup_id (l : List ApplicationRecord)
    (h : (mapKeys l).Nodup) : recMapOfList l = l := by
  have := foldl_set_eq_append l [] (by simpa [mapKeys] using h)
  simpa [recMapOfList] using this

/-! ## Lemmas about `lastFind` (last-write-wins description) -/

theorem lastFind_nil (k : String) : lastFind [] k = none := rfl

theorem lastFind_mem {k : String} {x : ApplicationRecord} :
    ∀ {l : List ApplicationRecord}, lastFind l k = some x →
      x ∈ l ∧ x.companyName = k := by
  intro l
  induction l with
  | nil => intro h; simp [lastFind] at h
  | cons r t ih =>
    intro h
    rw [lastFind] at h
    cases hl : lastFind t k with
    | some y =>
      rw [hl] at h
      cases h
      obtain ⟨hm, hk⟩ := ih hl
      exact ⟨List.mem_cons_of_mem _ hm, hk⟩
    | none =>
      rw [hl] at h
      by_cases hr : r.companyName = k
      · simp only [hr, beq_self_eq_true, if_true] at h
        cases h
        exact ⟨List.mem_cons_self _ _, hr⟩
      · simp [hr] at h

theorem lastFind_isSome {k : String} :
    ∀ {l : List ApplicationRecord},
      (lastFind l k).isSome = true ↔ k ∈ mapKeys l := by
  intro l
  induction l with
  | nil => simp [lastFind, mapKeys]
  | cons r t ih =>
    rw [lastFind]
    cases hl : lastFind t k with
    | some y =>
      have hk : k ∈ mapKeys t := by rw [← ih]; simp [hl]
      simp [mapKeys_cons, hk]
    | none =>
      have hk : k ∉ mapKeys t := by rw [← ih]; simp [hl]
      by_cases hr : r.companyName = k
      · simp [mapKeys_cons, hr, hk]
      · have hr' : ¬k = r.companyName := fun h => hr h.symm
        simp [mapKeys_cons, hr, hk, hr']

theorem lastFind_eq_of_uniq {f : ApplicationRecord} :
    ∀ {fresh : List ApplicationRecord}, f ∈ fresh →
      (∀ g ∈ fresh, g.companyName = f.companyName → g = f) →
      lastFind fresh f.companyName = some f := by
  intro fresh
  induction fresh with
  | nil => intro hf; simp at hf
  | cons g t ih =>
    intro hf hu
    rw [lastFind]
    cases hl : lastFind t f.companyName with
    | some x =>
      obtain ⟨hm, hk⟩ := lastFind_mem hl
      rw [hu x (List.mem_cons_of_mem _ hm) hk]
    | none =>
      rcases List.mem_cons.mp hf with rfl | hmem
      · simp
      · exfalso
        have hs : (lastFind t f.companyName).isSome = true :=
          lastFind_isSome.mpr (mem_mapKeys.mpr ⟨f, hmem, rfl⟩)
        rw [hl] at hs
        simp at hs

theorem recMapGet_foldl_set :
    ∀ (fresh m : List ApplicationRecord) (k : String),
      recMapGet (fresh.foldl recMapSet m) k =
        match lastFind fresh k with
        | some x => some x
        | none => recMapGet m k := by
  intro fresh
  induction fresh with
  | nil => intro m k; simp [lastFind]
  | cons f t ih =>
    intro m k
    rw [List.foldl_cons, ih]
    rw [lastFind]
    cases hl : lastFind t k with
    | some x => simp
    | none =>
      by_cases hk : f.companyName = k
      · subst hk
        simp [recMapGet_set_self]
      · simp [hk, recMapGet_set_ne f k (fun e => hk e.symm)]

theorem keys_mem_foldl_set {f : ApplicationRecord}
    {fresh : List ApplicationRecord} (hf : f ∈ fresh)
    (m : List ApplicationRecord) :
    f.companyName ∈ mapKeys (fresh.foldl recMapSet m) := by
  have h1 : (lastFind fresh f.companyName).isSome = true :=
    lastFind_isSome.mpr (mem_mapKeys.mpr ⟨f, hf, rfl⟩)
  have h2 : (recMapGet (fresh.foldl recMapSet m) f.companyName).isSome = true := by
    rw [recMapGet_foldl_set]
    cases hl : lastFind fresh f.companyName with
    | some x => simp
    | none => rw [hl] at h1; simp at h1
  exact recMapGet_isSome_iff.mp h2

/-! ## Getting from a map with unique keys -/

theorem recMapGet_eq_some_of_mem {r : ApplicationRecord} :
    ∀ {m : List ApplicationRecord}, (mapKeys m).Nodup → r ∈ m →
      recMapGet m r.companyName = some r := by
  intro m
  induction m with
  | nil => intro _ hr; simp at hr
  | cons a t ih =>
    intro hnd hr
    have hnd' := List.nodup_cons.mp (by simpa [mapKeys_cons] using hnd)
    rw [recMapGet_cons]
    rcases List.mem_cons.mp hr with rfl | hmem
    · simp
    · have ha : ¬(a.companyName = r.companyName) := by
        intro e
        exact hnd'.1 (e ▸ mem_mapKeys.mpr ⟨r, hmem, rfl⟩)
      simp only [beq_iff_eq, ha, if_false]
      exact ih hnd'.2 hmem

theorem recMapGet_perm {m m' : List ApplicationRecord} (hp : m.Perm m')
    (hnd : (mapKeys m).Nodup) (k : String) :
    recMapGet m k = recMapGet m' k := by
  have hpk : (mapKeys m).Perm (mapKeys m') := hp.map _
  have hnd' : (mapKeys m').Nodup := hpk.nodup_iff.mp hnd
  cases hg : recMapGet m k with
  | some r =>
    obtain ⟨hmem, hk⟩ := recMapGet_eq_some_imp hg
    have h2 : recMapGet m' r.companyName = some r :=
      recMapGet_eq_some_of_mem hnd' (hp.subset hmem)
    rw [← hk]
    exact h2.symm
  | none =>
    have h1 : k ∉ mapKeys m := recMapGet_eq_none_iff.mp hg
    have h2 : k ∉ mapKeys m' := fun hmem => h1 (hpk.mem_iff.mpr hmem)
    exact (recMapGet_eq_none_iff.mpr h2).symm

/-! ## Overwriting a whole fresh batch at once (`applyFresh`) -/

theorem map_replace_of_no_key (f : ApplicationRecord) :
    ∀ t : List ApplicationRecord, f.companyName ∉ mapKeys t →
      t.map (fun r => if r.companyName = f.companyName then f else r) = t := by
  intro t
  induction t with
  | nil => intro _; rfl
  | cons a s ih =>
    intro h
    have ha : ¬(a.companyName = f.companyName) := by
      intro e
      exact h (by simp [mapKeys_cons, e])
    have hs : f.companyName ∉ mapKeys s := by
      intro h1
      exact h (by simp [mapKeys_cons, h1])
    simp [ha, ih hs]

theorem set_eq_map_replace (f : ApplicationRecord) :
    ∀ m : List ApplicationRecord, (mapKeys m).Nodup →
      f.companyName ∈ mapKeys m →
      recMapSet m f =
        m.map (fun r => if r.companyName = f.companyName then f else r) := by
  intro m
  induction m with
  | nil => intro _ h; simp [mapKeys] at h
  | cons a t ih =>
    intro hnd hmem
    have hnd' := List.nodup_cons.mp (by simpa [mapKeys_cons] using hnd)
    by_cases h : a.companyName = f.companyName
    · have hnotin : f.companyName ∉ mapKeys t := h ▸ hnd'.1
      simp [recMapSet, h, map_replace_of_no_key f t hnotin]
    · have hmem' : f.companyName ∈ mapKeys t := by
        rcases (by simpa [mapKeys_cons] using hmem : f.companyName = a.companyName ∨ f.companyName ∈ mapKeys t) with h1 | h1
        · exact absurd h1.symm h
        · exact h1
      simp [recMapSet, h, ih hnd'.2 hmem']

theorem applyFresh_nil_batch (m : List ApplicationRecord) :
    applyFresh [] m = m := by
  unfold applyFresh
  simp [lastFind]

theorem applyFresh_cons_step (f : ApplicationRecord)
    (t m : List ApplicationRecord) (hnd : (mapKeys m).Nodup)
    (hf : f.companyName ∈ mapKeys m) :
    applyFresh t (recMapSet m f) = applyFresh (f :: t) m := by
  rw [set_eq_map_replace f m hnd hf]
  unfold applyFresh
  rw [List.map_map]
  have hfun : ((fun r => match lastFind t r.companyName with
        | some x => x
        | none => r) ∘
      (fun r => if r.companyName = f.companyName then f else r)) =
      (fun r => match lastFind (f :: t) r.companyName with
        | some x => x
        | none => r) := by
    funext r
    by_cases h : r.companyName = f.companyName
    · simp only [Function.comp, h, if_pos rfl, lastFind]
      cases hl : lastFind t f.companyName with
      | some x => simp [hl]
      | none => simp [hl]
    · have h' : ¬(f.companyName = r.companyName) := fun e => h e.symm
      simp only [Function.comp, if_neg h, lastFind]
      cases hl : lastFind t r.companyName with
      | some x => simp [hl]
      | none => simp [hl, h']
  rw [hfun]

theorem foldl_set_eq_applyFresh :
    ∀ (fresh m : List ApplicationRecord), (mapKeys m).Nodup →
      (∀ g ∈ fresh, g.companyName ∈ mapKeys m) →
      fresh.foldl recMapSet m = applyFresh fresh m := by
  intro fresh
  induction fresh with
  | nil => intro m _ _; simpa using (applyFresh_nil_batch m).symm
  | cons f t ih =>
    intro m hnd hkeys
    have hf : f.companyName ∈ mapKeys m := hkeys f (by simp)
    have hndset : (mapKeys (recMapSet m f)).Nodup := nodup_keys_set f m hnd
    have hkeyset : mapKeys (recMapSet m f) = mapKeys m := mapKeys_set_mem f m hf
    have hkeys' : ∀ g ∈ t, g.companyName ∈ mapKeys (recMapSet m f) := by
      rw [hkeyset]
      exact fun g hg => hkeys g (by simp [hg])
    calc (f :: t).foldl recMapSet m = t.foldl recMapSet (recMapSet m f) := rfl
      _ = applyFresh t (recMapSet m f) := ih (recMapSet m f) hndset hkeys'
      _ = applyFresh (f :: t) m := applyFresh_cons_step f t m hnd hf

theorem applyFresh_eq_self {fresh : List ApplicationRecord} :
    ∀ m : List ApplicationRecord,
      (∀ r ∈ m, ∀ x, lastFind fresh r.companyName = some x → x = r) →
      applyFresh fresh m = m := by
  intro m
  induction m with
  | nil => intro _; rfl
  | cons r t ih =>
    intro h
    unfold applyFresh at *
    simp only [List.map_cons]
    have h1 : (match lastFind fresh r.companyName with
        | some x => x
        | none => r) = r := by
      cases hl : lastFind fresh r.companyName with
      | some x => simpa using h r (by simp) x hl
      | none => simp
    rw [h1, ih (fun r' hr' x hx => h r' (by simp [hr']) x hx)]

theorem foldl_set_absorb (fresh m : List ApplicationRecord)
    (hnd : (mapKeys m).Nodup)
    (habs : ∀ k x, lastFind fresh k = some x → recMapGet m k = some x) :
    fresh.foldl recMapSet m = m := by
  have hkeys : ∀ g ∈ fresh, g.companyName ∈ mapKeys m := by
    intro g hg
    have h1 : (lastFind fresh g.companyName).isSome = true :=
      lastFind_isSome.mpr (mem_mapKeys.mpr ⟨g, hg, rfl⟩)
    cases hl : lastFind fresh g.companyName with
    | none => rw [hl] at h1; simp at h1
    | some x =>
      exact recMapGet_isSome_iff.mp (by simp [habs _ _ hl])
  rw [foldl_set_eq_applyFresh fresh m hnd hkeys]
  apply applyFresh_eq_self
  intro r hr x hx
  have h1 := habs _ _ hx
  have h2 := recMapGet_eq_some_of_mem hnd hr
  rw [h2] at h1
  exact (Option.some.inj h1).symm

/-! ## Characterising the selection and change-detection folds -/

theorem scrape_foldl (em : List ApplicationRecord) :
    ∀ (page : List PageCompany)
      (acc : List PageCompany × List ApplicationRecord),
      page.foldl (scrapeClassify em) acc =
        (acc.1 ++ page.filter (needsScrapeB em),
         acc.2 ++ page.filterMap (cachedPick em)) := by
  intro page
  induction page with
  | nil => intro acc; simp
  | cons c t ih =>
    intro acc
    rw [List.foldl_cons, ih]
    cases h : recMapGet em c.name with
    | none =>
      simp [scrapeClassify, needsScrapeB, cachedPick, h, List.filter_cons,
        List.filterMap_cons]
    | some e =>
      by_cases he : (!e.isAlloted && e.status != "Not Alloted") = true
      · simp [scrapeClassify, needsScrapeB, cachedPick, h, he,
          List.filter_cons, List.filterMap_cons]
      · simp [scrapeClassify, needsScrapeB, cachedPick, h, he,
          List.filter_cons, List.filterMap_cons]

theorem findCompaniesToScrape_eq (page : List PageCompany)
    (existing : List ApplicationRecord) :
    findCompaniesToScrape page existing =
      (page.filter (needsScrapeB (recMapOfList existing)),
       page.filterMap (cachedPick (recMapOfList existing))) := by
  unfold findCompaniesToScrape
  rw [scrape_foldl]
  simp

theorem compare_foldl (pm : List ApplicationRecord) :
    ∀ (fresh : List ApplicationRecord) (ch : Changes),
      fresh.foldl (compareStep pm) ch =
        { newAllotments := ch.newAllotments ++ fresh.filter (newAllotPred pm)
          updatedAllotments :=
            ch.updatedAllotments ++ fresh.filterMap (updatePick pm)
          newApplications :=
            ch.newApplications ++ fresh.filter (newAppPred pm) } := by
  intro fresh
  induction fresh with
  | nil => intro ch; simp
  | cons f t ih =>
    intro ch
    rw [List.foldl_cons, ih]
    cases h : recMapGet pm f.companyName with
    | none =>
      by_cases ha : f.isAlloted = true
      · simp [compareStep, newAllotPred, newAppPred, updatePick, h, ha,
          List.filter_cons, List.filterMap_cons]
      · simp [compareStep, newAllotPred, newAppPred, updatePick, h, ha,
          List.filter_cons, List.filterMap_cons]
    | some p =>
      by_cases h1 : (f.isAlloted && !p.isAlloted) = true
      · have h1' : f.isAlloted = true ∧ p.isAlloted = false := by
          simpa using h1
        have hfa := h1'.1
        have hpa := h1'.2
        simp [compareStep, newAllotPred, newAppPred, updatePick, h, h1,
          hfa, hpa, List.filter_cons, List.filterMap_cons]
      · by_cases h2 : (f.isAlloted && p.isAlloted
            && f.allotedQty != p.allotedQty) = true
        · simp [compareStep, newAllotPred, newAppPred, updatePick, h, h1, h2,
            List.filter_cons, List.filterMap_cons]
        · simp [compareStep, newAllotPred, newAppPred, updatePick, h, h1, h2,
            List.filter_cons, List.filterMap_cons]

theorem compareResults_eq (previousApps newResults : List ApplicationRecord) :
    compareResults previousApps newResults =
      { newAllotments :=
          newResults.filter (newAllotPred (recMapOfList previousApps))
        updatedAllotments :=
          newResults.filterMap (updatePick (recMapOfList previousApps))
        newApplications :=
          newResults.filter (newAppPred (recMapOfList previousApps)) } := by
  unfold compareResults
  rw [compare_foldl]
  simp

/-! ## Orchestrator loop lemmas -/

theorem executeAllLoop_eq (wf : Account → WorkflowOutcome)
    (clock : Account → String) :
    ∀ (accounts : List Account) (results : List RunEntry),
      executeAllLoop wf clock accounts results =
        results ++ accounts.map (accountEntry wf clock) := by
  intro accounts
  induction accounts with
  | nil => intro results; simp [executeAllLoop]
  | cons a t ih =>
    intro results
    rw [executeAllLoop, ih]
    simp

theorem executeAll_eq_map (wf : Account → WorkflowOutcome)
    (clock : Account → String) (accounts : List Account) :
    executeAll wf clock accounts = accounts.map (accountEntry wf clock) := by
  unfold executeAll
  rw [executeAllLoop_eq]
  simp

theorem executeAll_length (wf : Account → WorkflowOutcome)
    (clock : Account → String) (accounts : List Account) :
    (executeAll wf clock accounts).length = accounts.length := by
  rw [executeAll_eq_map]
  simp

/-! ## Exit-code helper lemmas -/

theorem filter_not_success_len_zero (results : List RunEntry) :
    ((results.filter (fun r => !r.result.success)).length = 0) ↔
      results.all (fun r => r.result.success) = true := by
  rw [List.length_eq_zero, List.filter_eq_nil_iff, List.all_eq_true]
  constructor
  · intro h a ha
    have := h a ha
    simpa using this
  · intro h a ha
    simp [h a ha]

theorem filter_success_len_pos (results : List RunEntry) :
    (0 < (results.filter (fun r => r.result.success)).length) ↔
      results.any (fun r => r.result.success) = true := by
  rw [List.length_pos, List.any_eq_true]
  constructor
  · intro h
    obtain ⟨x, hx⟩ := List.exists_mem_of_ne_nil _ h
    have hm := List.mem_filter.mp hx
    exact ⟨x, hm.1, hm.2⟩
  · rintro ⟨x, hx, hs⟩
    exact List.ne_nil_of_mem (List.mem_filter.mpr ⟨hx, hs⟩)

theorem exitDerivation_false_eq (results : List RunEntry) :
    exitDerivation false results =
      if results.all (fun r => r.result.success) then 0
      else if results.any (fun r => r.result.success) then 1 else 2 := by
  unfold exitDerivation
  by_cases hall : results.all (fun r => r.result.success) = true
  · have hzero := (filter_not_success_len_zero results).mpr hall
    simp [hall, hzero]
  · have hnz : ¬((results.filter (fun r => !r.result.success)).length = 0) := by
      intro h
      exact hall ((filter_not_success_len_zero results).mp h)
    by_cases hany : results.any (fun r => r.result.success) = true
    · have hpos := (filter_success_len_pos results).mpr hany
      simp [hall, hany, hnz, hpos]
    · have hnpos : ¬(0 < (results.filter (fun r => r.result.success)).length) := by
        intro h
        exact hany ((filter_success_len_pos results).mp h)
      simp [hall, hany, hnz, hnpos]

theorem exitDerivation_true_eq (results : List RunEntry) :
    exitDerivation true results =
      if results.all (fun r => r.result.success) then 0 else 1 := by
  unfold exitDerivation
  by_cases hall : results.all (fun r => r.result.success) = true
  · have hnone : results.any (fun r => !r.result.success) = false := by
      rw [List.any_eq_false]
      intro x hx
      simp [List.all_eq_true.mp hall x hx]
    simp [hall, hnone]
  · have hsome : results.any (fun r => !r.result.success) = true := by
      rw [List.any_eq_true]
      have h1 : ¬∀ x ∈ results, x.result.success = true := by
        simpa [List.all_eq_true] using hall
      push_neg at h1
      obtain ⟨x, hx, hs⟩ := h1
      exact ⟨x, hx, by simp [hs]⟩
    simp [hall, hsome]

/-! ## Pointwise characterisation of the selection predicates -/

theorem needsScrape_iff (em : List ApplicationRecord) (c : PageCompany) :
    needsScrapeB em c = true ↔
      (recMapGet em c.name = none ∨
       ∃ e, recMapGet em c.name = some e ∧
         e.isAlloted = false ∧ e.status ≠ "Not Alloted") := by
  unfold needsScrapeB
  cases h : recMapGet em c.name with
  | none => simp
  | some e' => simp [h]

theorem cachedPick_eq_some_iff (em : List ApplicationRecord) (c : PageCompany)
    (e : ApplicationRecord) :
    cachedPick em c = some e ↔
      recMapGet em c.name = some e ∧
        (e.isAlloted = true ∨ e.status = "Not Alloted") := by
  unfold cachedPick
  cases h : recMapGet em c.name with
  | none => simp
  | some e' =>
    by_cases hc : (!e'.isAlloted && e'.status != "Not Alloted") = true
    · have hc' : e'.isAlloted = false ∧ ¬(e'.status = "Not Alloted") := by
        simpa using hc
      simp only [hc, if_true, Option.some.injEq]
      constructor
      · intro hfalse
        exact absurd hfalse (by simp)
      · rintro ⟨heq, hor⟩
        cases heq
        rcases hor with h1 | h1
        · rw [hc'.1] at h1
          exact absurd h1 (by simp)
        · exact absurd h1 hc'.2
    · have hc' : e'.isAlloted = true ∨ e'.status = "Not Alloted" := by
        rcases Bool.eq_false_or_eq_true e'.isAlloted with hb | hb
        · exact Or.inl hb
        · right
          by_contra hne
          exact hc (by simp [hb, hne])
      have hcf : (!e'.isAlloted && e'.status != "Not Alloted") = false := by
        simpa using hc
      simp only [hcf, Bool.false_eq_true, if_false, Option.some.injEq]
      constructor
      · intro heq
        cases heq
        exact ⟨rfl, hc'⟩
      · rintro ⟨heq, _⟩
        exact heq

/-! ## The claims -/

/-- Claim C1, counterexample: in results mode, a run with one attempted
account and zero successes exits with status 1, not 2 as the claim states
for "either mode". -/
theorem claim_C1_counterexample :
    entryFail.result.success = false ∧
      exitDerivation true [entryFail] = 1 ∧
      exitDerivation true [entryFail] ≠ 2 := by
  refine ⟨rfl, rfl, by decide⟩

/-- Claim C1, amended: a fatal error before the run completes exits 2 in
either mode.  In apply mode the exit code is 0 when every result succeeded,
1 when at least one succeeded and at least one failed, and 2 when zero
succeeded.  In results mode the exit code is 0 when every result succeeded
and 1 otherwise — also when zero accounts succeeded. -/
theorem claim_C1_amended (resultsMode : Bool) (msg : String)
    (results : List RunEntry) :
    mainExitCode resultsMode (.error msg) = 2
  ∧ mainExitCode false (.ok results) =
      (if results.all (fun r => r.result.success) then 0
       else if results.any (fun r => r.result.success) then 1 else 2)
  ∧ mainExitCode true (.ok results) =
      (if results.all (fun r => r.result.success) then 0 else 1) :=
  ⟨rfl, exitDerivation_false_eq results, exitDerivation_true_eq results⟩

/-- Claim C2: the extracted record's `isAlloted` flag equals the
`/allot(ed)?/i` status test, which holds exactly when the status contains
"allot" in any letter case; in particular the terminal status
"Not Alloted" sets `isAlloted := true`, and a prior record with
`isAlloted = true` found for a page item is classified as finalized:
it lands in `cached` and the item is not re-scraped. -/
theorem claim_C2 (info : CompanyInfo) (gl : String → String)
    (page : List PageCompany) (existing : List ApplicationRecord)
    (c : PageCompany) (e : ApplicationRecord) :
    ((extractApplicationDetails info gl).isAlloted = isAllotedStatus (gl "Status"))
  ∧ (isAllotedStatus (gl "Status") = true ↔
      "allot".toList <:+: (gl "Status").toList.map Char.toLower)
  ∧ isAllotedStatus "Not Alloted" = true
  ∧ (c ∈ page → recMapGet (recMapOfList existing) c.name = some e →
      e.isAlloted = true →
      e ∈ (findCompaniesToScrape page existing).2 ∧
        c ∉ (findCompaniesToScrape page existing).1) := by
  refine ⟨rfl, by simp [isAllotedStatus], by decide, ?_⟩
  intro hc hget he
  rw [findCompaniesToScrape_eq]
  constructor
  · exact List.mem_filterMap.mpr
      ⟨c, hc, (cachedPick_eq_some_iff _ c e).mpr ⟨hget, Or.inl he⟩⟩
  · intro hmem
    have hp := (List.mem_filter.mp hmem).2
    rcases (needsScrape_iff _ c).mp hp with hnone | ⟨e', hget', hfalse, _⟩
    · rw [hget] at hnone
      exact absurd hnone (by simp)
    · rw [hget] at hget'
      cases Option.some.inj hget'
      rw [he] at hfalse
      exact absurd hfalse (by simp)

/-- Claim C2 witness: a detail page whose status reads "Not Alloted"
produces a record with `isAlloted = true`, and that record is cached
rather than re-scraped on the next selection pass. -/
theorem claim_C2_witness :
    isAllotedStatus "Not Alloted" = true
  ∧ recNotAlloted ∈ (findCompaniesToScrape [⟨0, "A"⟩] [recNotAlloted]).2
  ∧ (⟨0, "A"⟩ : PageCompany) ∉ (findCompaniesToScrape [⟨0, "A"⟩] [recNotAlloted]).1 := by
  have h := claim_C2 infoA glNotAlloted [⟨0, "A"⟩] [recNotAlloted]
    ⟨0, "A"⟩ recNotAlloted
  have h4 := h.2.2.2 (by decide) (by decide) (by decide)
  exact ⟨h.2.2.1, h4.1, h4.2⟩

/-- Claim C3: the merge is idempotent — applying the same freshly scraped
batch to the already merged state yields the merged state again. -/
theorem claim_C3 (previousApps newResults : List ApplicationRecord) :
    mergeApplications (mergeApplications previousApps newResults) newResults =
      mergeApplications previousApps newResults := by
  have hndM : (mapKeys (newResults.foldl recMapSet (recMapOfList previousApps))).Nodup :=
    nodup_keys_foldl_set newResults _ (nodup_keys_recMapOfList previousApps)
  have hperm : (List.insertionSort recLE
      (newResults.foldl recMapSet (recMapOfList previousApps))).Perm
      (newResults.foldl recMapSet (recMapOfList previousApps)) :=
    List.perm_insertionSort recLE _
  have hnds : (mapKeys (List.insertionSort recLE
      (newResults.foldl recMapSet (recMapOfList previousApps)))).Nodup :=
    ((hperm.map _).nodup_iff).mpr hndM
  have hsorted : List.Sorted recLE (List.insertionSort recLE
      (newResults.foldl recMapSet (recMapOfList previousApps))) :=
    List.sorted_insertionSort recLE _
  have hof : recMapOfList (List.insertionSort recLE
        (newResults.foldl recMapSet (recMapOfList previousApps))) =
      List.insertionSort recLE
        (newResults.foldl recMapSet (recMapOfList previousApps)) :=
    recMapOfList_nodup_id _ hnds
  have habs : ∀ k x, lastFind newResults k = some x →
      recMapGet (List.insertionSort recLE
        (newResults.foldl recMapSet (recMapOfList previousApps))) k = some x := by
    intro k x hx
    rw [recMapGet_perm hperm hnds k, recMapGet_foldl_set, hx]
  have hfold := foldl_set_absorb newResults _ hnds habs
  show List.insertionSort recLE (newResults.foldl recMapSet (recMapOfList
      (List.insertionSort recLE
        (newResults.foldl recMapSet (recMapOfList previousApps))))) =
    List.insertionSort recLE
      (newResults.foldl recMapSet (recMapOfList previousApps))
  rw [hof, hfold]
  exact List.Sorted.insertionSort_eq hsorted

/-- Claim C4: an account whose workflow raises is recorded as a failed
result carrying the error's message and a timestamp, and every other
account's entry is exactly the entry its own workflow outcome determines. -/
theorem claim_C4 (wf : Account → WorkflowOutcome) (clock : Account → String)
    (accounts : List Account) (i : Nat) (msg : String)
    (hi : i < accounts.length)
    (hraise : wf accounts[i] = .raised msg) :
    (executeAll wf clock accounts)[i]? =
      some { account := maskValue accounts[i].username
             dp := accounts[i].dpName
             result := { success := false, error := some msg
                         timestamp := clock accounts[i] } }
  ∧ ∀ j, j ≠ i →
      (executeAll wf clock accounts)[j]? =
        accounts[j]?.map (accountEntry wf clock) := by
  constructor
  · rw [executeAll_eq_map, List.getElem?_map, List.getElem?_eq_getElem hi]
    simp [accountEntry, hraise]
  · intro j _
    rw [executeAll_eq_map, List.getElem?_map]

/-- Claim C4 witness: with two accounts where the first account's workflow
raises "boom", the first entry is the converted failure and the second
entry is untouched. -/
theorem claim_C4_witness :
    (executeAll wf0 clock0 accs0)[0]? =
      some { account := maskValue "alice123", dp := "DP One"
             result := { success := false, error := some "boom"
                         timestamp := "t0" } }
  ∧ (executeAll wf0 clock0 accs0)[1]? =
      (accs0[1]?).map (accountEntry wf0 clock0) := by
  have h := claim_C4 wf0 clock0 accs0 0 "boom" (by decide) (by decide)
  exact ⟨h.1, h.2 1 (by decide)⟩

/-- Claim C5: a page item goes to `toScrape` exactly when it has no prior
record under its name or its prior record is not finalized (not allotted
and status not "Not Alloted"); it contributes its prior record to `cached`
otherwise; and on the spec's example the result is
`toScrape = ["B"]`, `cached = ["A"]`. -/
theorem claim_C5 (page : List PageCompany) (existing : List ApplicationRecord) :
    (∀ c, c ∈ (findCompaniesToScrape page existing).1 ↔
        c ∈ page ∧
          (recMapGet (recMapOfList existing) c.name = none ∨
           ∃ e, recMapGet (recMapOfList existing) c.name = some e ∧
             e.isAlloted = false ∧ e.status ≠ "Not Alloted"))
  ∧ (∀ e, e ∈ (findCompaniesToScrape page existing).2 ↔
        ∃ c ∈ page, recMapGet (recMapOfList existing) c.name = some e ∧
          (e.isAlloted = true ∨ e.status = "Not Alloted"))
  ∧ findCompaniesToScrape [⟨0, "A"⟩, ⟨1, "B"⟩] [recA, recB] =
      ([⟨1, "B"⟩], [recA]) := by
  refine ⟨?_, ?_, by decide⟩
  · intro c
    rw [findCompaniesToScrape_eq]
    rw [List.mem_filter]
    rw [needsScrape_iff]
  · intro e
    rw [findCompaniesToScrape_eq]
    simp only [List.mem_filterMap]
    constructor
    · rintro ⟨c, hc, hpick⟩
      exact ⟨c, hc, (cachedPick_eq_some_iff _ c e).mp hpick⟩
    · rintro ⟨c, hc, hrest⟩
      exact ⟨c, hc, (cachedPick_eq_some_iff _ c e).mpr hrest⟩

/-- Claim C6: change detection against the pre-merge prior state — the
change set equals the componentwise description (new applications are the
fresh records with no prior counterpart; new allotments are the allotted
fresh records never seen before or previously not allotted; updated
allotments are the quantity changes carrying the previous quantity; all
other records appear in no list), and the spec's two examples compute as
stated. -/
theorem claim_C6 (previousApps newResults : List ApplicationRecord) :
    compareResults previousApps newResults =
      { newAllotments :=
          newResults.filter (newAllotPred (recMapOfList previousApps))
        updatedAllotments :=
          newResults.filterMap (updatePick (recMapOfList previousApps))
        newApplications :=
          newResults.filter (newAppPred (recMapOfList previousApps)) }
  ∧ compareResults [recCPrior, recDPrior] [recCFresh, recDFresh] =
      { newAllotments := [recCFresh]
        updatedAllotments := [⟨recDFresh, 5⟩]
        newApplications := [] } :=
  ⟨compareResults_eq previousApps newResults, by decide⟩

/-- Claim C7: last-write-wins by key — when the fresh batch holds exactly
one record under a name, the merged mapping holds exactly that fresh
record under the name, it appears in the merged list, and no other record
with that name survives the merge. -/
theorem claim_C7 (previousApps newResults : List ApplicationRecord)
    (f : ApplicationRecord) (hf : f ∈ newResults)
    (hu : ∀ g ∈ newResults, g.companyName = f.companyName → g = f) :
    recMapGet (newResults.foldl recMapSet (recMapOfList previousApps))
        f.companyName = some f
  ∧ f ∈ mergeApplications previousApps newResults
  ∧ ∀ p, p.companyName = f.companyName →
      p ∈ mergeApplications previousApps newResults → p = f := by
  have hlast := lastFind_eq_of_uniq hf hu
  have hget : recMapGet (newResults.foldl recMapSet (recMapOfList previousApps))
      f.companyName = some f := by
    rw [recMapGet_foldl_set, hlast]
  have hndM : (mapKeys (newResults.foldl recMapSet (recMapOfList previousApps))).Nodup :=
    nodup_keys_foldl_set newResults _ (nodup_keys_recMapOfList previousApps)
  have hmemM : f ∈ newResults.foldl recMapSet (recMapOfList previousApps) :=
    (recMapGet_eq_some_imp hget).1
  refine ⟨hget, ?_, ?_⟩
  · show f ∈ List.insertionSort recLE
      (newResults.foldl recMapSet (recMapOfList previousApps))
    rw [List.mem_insertionSort]
    exact hmemM
  · intro p hp hpm
    have hpm' : p ∈ newResults.foldl recMapSet (recMapOfList previousApps) := by
      have hpm2 : p ∈ List.insertionSort recLE
          (newResults.foldl recMapSet (recMapOfList previousApps)) := hpm
      rw [List.mem_insertionSort] at hpm2
      exact hpm2
    have hgetp := recMapGet_eq_some_of_mem hndM hpm'
    rw [hp, hget] at hgetp
    exact (Option.some.inj hgetp).symm

/-- Claim C7 witness: the spec's example — prior
`{name:"X", status:"Pending"}`, fresh
`{name:"X", status:"Alloted", allotedQty:10}` — merges to exactly the
fresh record. -/
theorem claim_C7_witness :
    recMapGet ([recXFresh].foldl recMapSet (recMapOfList [recXPrior])) "X" =
      some recXFresh
  ∧ recXFresh ∈ mergeApplications [recXPrior] [recXFresh]
  ∧ mergeApplications [recXPrior] [recXFresh] = [recXFresh] := by
  have h := claim_C7 [recXPrior] [recXFresh] recXFresh (by decide) (by decide)
  exact ⟨h.1, h.2.1, by decide⟩

/-- Claim C8: the run produces exactly one entry per account, in input
order — `executeAll` is the pointwise image of the account list, and in
particular has the same length. -/
theorem claim_C8 (wf : Account → WorkflowOutcome) (clock : Account → String)
    (accounts : List Account) :
    executeAll wf clock accounts = accounts.map (accountEntry wf clock)
  ∧ (executeAll wf clock accounts).length = accounts.length :=
  ⟨executeAll_eq_map wf clock accounts, executeAll_length wf clock accounts⟩

/-- Claim C9: loading a missing or malformed store yields the empty
mapping (the embedding is a total function, so no exception escapes), the
account's prior list is then empty, and selection over the empty prior
state sends every page item to `toScrape` and none to `cached`. -/
theorem claim_C9 (raw : String) (page : List PageCompany) (u : String) :
    loadPreviousResults .missing = (fun _ => none)
  ∧ loadPreviousResults (.malformed raw) = (fun _ => none)
  ∧ accountApplications (loadPreviousResults .missing) u = []
  ∧ findCompaniesToScrape page
      (accountApplications (loadPreviousResults .missing) u) = (page, []) := by
  refine ⟨rfl, rfl, rfl, ?_⟩
  show findCompaniesToScrape page [] = (page, [])
  rw [findCompaniesToScrape_eq]
  have h1 : page.filter (needsScrapeB (recMapOfList [])) = page := by
    rw [List.filter_eq_self]
    intro c _
    simp [needsScrapeB, recMapOfList, recMapGet]
  have h2 : page.filterMap (cachedPick (recMapOfList [])) = [] := by
    rw [List.filterMap_eq_nil_iff]
    intro c _
    simp [cachedPick, recMapOfList, recMapGet]
  rw [h1, h2]

/-- Claim C10: the merged record list is always sorted ascending by
company name, whatever the scrape or storage order, and `saveResults`
persists exactly that merged list under the account's key. -/
theorem claim_C10 (store : String → Option AccountLedger) (u : String)
    (previousApps newResults : List ApplicationRecord) (now : String) :
    List.Sorted recLE (mergeApplications previousApps newResults)
  ∧ saveResults store u newResults now u =
      some { lastUpdated := now
             applications :=
               mergeApplications (accountApplications store u) newResults } :=
  ⟨List.sorted_insertionSort recLE _, by simp [saveResults]⟩

end MeroShare
